import Mathlib

/-!
Verification of the data-access plugin of `poc-mef` (`projects_data_plugin.py`).

The program is shallowly embedded over `List Char`.  Python strings become
`List Char` (obtained from Lean string literals via `.data`), `str.replace`
becomes the executable `repl` below (leftmost, non-overlapping occurrence
replacement, exactly Python's semantics for non-empty patterns), and
`str.upper` becomes the character-wise map `upC` which covers the character
repertoire this program works with (ASCII plus the Spanish letters that occur
in the column names).  Fallible operations are modelled with `Except`/`Option`.
-/

namespace PocMef

/-- `pfx a b` : the list `a` is a prefix of `b` (Boolean, executable). -/
def pfx : List Char → List Char → Bool
  | [], _ => true
  | _ :: _, [] => false
  | a :: as, b :: bs => a == b && pfx as bs

/-- `occursB pat s` : `pat` occurs as a contiguous substring of `s`. -/
def occursB (pat : List Char) : List Char → Bool
  | [] => pfx pat []
  | c :: rest => pfx pat (c :: rest) || occursB pat rest

/-- Recursion core of `repl`, structural on a fuel bound (`fuel ≥ s.length`
always holds at call sites, so the `0` fallback is never reached). -/
def replFuel (pat rep : List Char) : Nat → List Char → List Char
  | _, [] => []
  | 0, s => s
  | fuel + 1, c :: rest =>
    if pat ≠ [] ∧ pfx pat (c :: rest) = true then
      rep ++ replFuel pat rep fuel ((c :: rest).drop pat.length)
    else
      c :: replFuel pat rep fuel rest

/-- Python `s.replace(pat, rep)` for a non-empty pattern: replace the leftmost
occurrence, continue scanning after the inserted replacement.  For an empty
pattern the string is returned unchanged (the program never uses an empty
pattern). -/
def repl (pat rep : List Char) (s : List Char) : List Char :=
  replFuel pat rep s.length s

/-- Shorthand: the character list of a string literal. -/
def cs (s : String) : List Char := s.data

/-- Character-wise model of Python `str.upper` on the repertoire used by the
program: ASCII letters and the Spanish letters appearing in the column names
(`ñ`, accented vowels).  Other characters are fixed. -/
def upC (c : Char) : Char :=
  if c = 'ñ' then 'Ñ'
  else if c = 'á' then 'Á'
  else if c = 'é' then 'É'
  else if c = 'í' then 'Í'
  else if c = 'ó' then 'Ó'
  else if c = 'ú' then 'Ú'
  else c.toUpper

/-- Python `str.upper` over a whole string. -/
def upL (s : List Char) : List Char := s.map upC

/-- The two column names of the Case-Preservation Exception Set
(`preserve_columns` in `_selective_uppercase`). -/
def p0 : List Char := cs "pim_año_actual"

/-- Second member of the Case-Preservation Exception Set. -/
def p1 : List Char := cs "devengado_año_actual"

/-- Placeholder marker `__PRESERVE_COLUMN_0__`. -/
def m0 : List Char := cs "__PRESERVE_COLUMN_0__"

/-- Placeholder marker `__PRESERVE_COLUMN_1__`. -/
def m1 : List Char := cs "__PRESERVE_COLUMN_1__"

/-- Uppercase column variant `PIM_AÑO_ACTUAL` (source of a normalization rule). -/
def bigP0 : List Char := cs "PIM_AÑO_ACTUAL"

/-- Uppercase column variant `DEVENGADO_AÑO_ACTUAL`. -/
def bigP1 : List Char := cs "DEVENGADO_AÑO_ACTUAL"

/-- `_convert_sqlite_to_postgres`: the Normalization Rule Set.  Column
normalizations (`PIM_AÑO_ACTUAL → pim_año_actual`,
`DEVENGADO_AÑO_ACTUAL → devengado_año_actual`) are applied first, then the
three identity keyword conversions (`INTEGER`, `TEXT`, `REAL`), in the
dictionaries' insertion order, each via `str.replace`. -/
def convert_sqlite_to_postgres (q : List Char) : List Char :=
  repl (cs "REAL") (cs "REAL")
    (repl (cs "TEXT") (cs "TEXT")
      (repl (cs "INTEGER") (cs "INTEGER")
        (repl bigP1 p1 (repl bigP0 p0 q))))

/-- `_selective_uppercase`: replace each exception column by its marker,
uppercase everything, then restore the markers (in insertion order of
`temp_markers`). -/
def selective_uppercase (q : List Char) : List Char :=
  repl m1 p1 (repl m0 p0 (upL (repl p1 m1 (repl p0 m0 q))))

/-- The query text `executeQuery` actually passes to the backend:
normalization followed by the selective uppercase pass. -/
def backendQuery (q : List Char) : List Char :=
  selective_uppercase (convert_sqlite_to_postgres q)


/-! ### JSON serialization (Python `json.dumps` and pandas `to_json`) -/

/-- Left curly brace (written via its code point to keep string literals
brace-free). -/
def lbrace : Char := Char.ofNat 123

/-- Right curly brace. -/
def rbrace : Char := Char.ofNat 125

/-- Lowercase hexadecimal digit. -/
def hexDig (n : Nat) : Char :=
  if n < 10 then Char.ofNat (48 + n) else Char.ofNat (87 + n)

/-- Four-digit lowercase hex rendering, as in `\uXXXX` escapes. -/
def hex4 (n : Nat) : List Char :=
  [hexDig (n / 4096 % 16), hexDig (n / 256 % 16), hexDig (n / 16 % 16),
   hexDig (n % 16)]

/-- A `\uXXXX` escape. -/
def uEsc (n : Nat) : List Char := '\\' :: 'u' :: hex4 n

/-- Per-character escaping of Python `json.dumps` with its default
`ensure_ascii=True`: two-character escapes for the JSON specials, `\uXXXX`
for other control or non-ASCII characters (with surrogate pairs above
`0xFFFF`). -/
def pyEscC (c : Char) : List Char :=
  if c = '"' then ['\\', '"']
  else if c = '\\' then ['\\', '\\']
  else if c = '\n' then ['\\', 'n']
  else if c = '\r' then ['\\', 'r']
  else if c = '\t' then ['\\', 't']
  else if c.toNat = 8 then ['\\', 'b']
  else if c.toNat = 12 then ['\\', 'f']
  else if c.toNat < 32 ∨ 127 ≤ c.toNat then
    if c.toNat < 65536 then uEsc c.toNat
    else uEsc (55296 + (c.toNat - 65536) / 1024) ++ uEsc (56320 + (c.toNat - 65536) % 1024)
  else [c]

/-- `json.dumps` of a plain string. -/
def pyJsonStr (s : List Char) : List Char := '"' :: (s.flatMap pyEscC ++ ['"'])

/-- One `"key": "value"` entry. -/
def pyJsonEntry (kv : List Char × List Char) : List Char :=
  pyJsonStr kv.1 ++ cs ": " ++ pyJsonStr kv.2

/-- `", ".join`-style separator fold, modelling Python `str.join` and the
item separators of `json.dumps`. -/
def joinSep (sep : List Char) : List (List Char) → List Char
  | [] => []
  | [x] => x
  | x :: y :: rest => x ++ sep ++ joinSep sep (y :: rest)

/-- `json.dumps` of a dict whose values are strings, keys in insertion order,
with the default `", "`/`": "` separators. -/
def pyJsonObjStr (kvs : List (List Char × List Char)) : List Char :=
  lbrace :: (joinSep (cs ", ") (kvs.map pyJsonEntry) ++ [rbrace])

/-- Per-character escaping of pandas `to_json` (ujson): like `json.dumps`
plus the forward-slash escape. -/
def pdEscC (c : Char) : List Char :=
  if c = '/' then ['\\', '/'] else pyEscC c

/-- pandas string rendering. -/
def pdJsonStr (s : List Char) : List Char := '"' :: (s.flatMap pdEscC ++ ['"'])

/-- A cell value fetched from the database, as it ends up in the DataFrame:
an integer, a text value, or NULL. -/
inductive PgVal where
  | vint (n : Int)
  | vstr (s : List Char)
  | vnull
deriving DecidableEq

/-- pandas rendering of one cell. -/
def pdCell : PgVal → List Char
  | .vint n => cs (toString n)
  | .vstr s => pdJsonStr s
  | .vnull => cs "null"

/-- Compact JSON array (pandas uses no spaces after separators). -/
def pdArr (xs : List (List Char)) : List Char :=
  '[' :: (joinSep (cs ",") xs ++ [']'])

/-- `DataFrame(rows).to_json(index=False, orient="split")`, modelled from the
documented behaviour of pandas: a `columns` array and a `data` array of row
arrays; with `index=False` the `index` field is omitted. -/
def pandas_split_json (cols : List (List Char)) (rows : List (List PgVal)) :
    List Char :=
  lbrace :: (pdJsonStr (cs "columns") ++ [':'] ++ pdArr (cols.map pdJsonStr) ++
    [','] ++ pdJsonStr (cs "data") ++ [':'] ++
    pdArr (rows.map (fun r => pdArr (r.map pdCell))) ++ [rbrace])

/-! ### The query-execution bridge -/

/-- Outcome of `self.conn.fetch(q)` on an open connection: the rows (with
the column names of the records, which asyncpg keeps identical across one
result set) or a raised exception with its `str(e)` message. -/
inductive FetchOutcome where
  | rows (cols : List (List Char)) (rs : List (List PgVal))
  | exn (msg : List Char)

/-- Key of the error payload built in the `except` branch. -/
def errKey : List Char := cs "PostgreSQL query failed with error"

/-- The fixed informational string for empty results. -/
def emptyResultMsg : List Char :=
  cs "The query returned no results. Try a different question."

/-- `str(e)` of the `AttributeError` raised by `None.fetch` when the
connection handle is null. -/
def noneFetchMsg : List Char :=
  cs "\x27NoneType\x27 object has no attribute \x27fetch\x27"

/-- `async_fetch_sql_data_using_postgres_query` (the `executeQuery` surface):
normalize the query, selectively uppercase it, fetch, and serialize.  The
connection handle is `conn`; a `none` handle makes the fetch raise an
`AttributeError`, which — like every exception inside the `try` — is caught
by the catch-all `except Exception` and converted into the two-key error
object.  The `match` is total: no exception propagates to the caller. -/
def executeQuery (conn : Option (List Char → FetchOutcome)) (q : List Char) :
    List Char :=
  let pq := backendQuery q
  match conn with
  | none => pyJsonObjStr [(errKey, noneFetchMsg), (cs "query", pq)]
  | some fetch =>
    match fetch pq with
    | .exn m => pyJsonObjStr [(errKey, m), (cs "query", pq)]
    | .rows cols rs =>
      if rs.isEmpty then pyJsonStr emptyResultMsg
      else pandas_split_json cols rs

/-! ### Environment validation and connection lifecycle -/

/-- The six required environment variables (module level, lines 16-23). -/
def required_env_vars : List (List Char) :=
  [cs "DB_HOST", cs "DB_PORT", cs "DB_NAME", cs "DB_USER", cs "DB_PASSWORD",
   cs "DB_TABLE_NAME"]

/-- `missing_vars`: the required variables absent from the environment (the
environment is modelled as the list of defined variable names). -/
def missing_vars (env : List (List Char)) : List (List Char) :=
  required_env_vars.filter (fun v => !(env.contains v))

/-- The message of the `EnvironmentError` raised at import time. -/
def envErrorMsg (env : List (List Char)) : List Char :=
  cs "Las siguientes variables de entorno son requeridas pero no están configuradas: "
    ++ joinSep (cs ", ") (missing_vars env)

/-- Module import: the environment validation that runs before any other code
of the plugin module — in particular before the class exists and before any
`connect()` call is possible.  On missing variables it raises
`EnvironmentError` (modelled as `.error`). -/
def module_init (env : List (List Char)) : Except (List Char) Unit :=
  if (missing_vars env).isEmpty then .ok () else .error (envErrorMsg env)

/-- What `asyncpg.connect(**DATABASE_CONFIG)` did: succeeded, raised an
`asyncpg.PostgresError` (e.g. authentication failure), or raised some other
exception (e.g. `OSError` when the backend is unreachable). -/
inductive ConnectAttempt where
  | success
  | pgError (msg : List Char)
  | otherExn (msg : List Char)

/-- `connect()`: stores the new handle on success; the `except
asyncpg.PostgresError` branch logs and leaves `self.conn = None`; any other
exception is not caught and propagates (`.error`).  The value is the
resulting `self.conn`. -/
def connect (attempt : ConnectAttempt)
    (newConn : List Char → FetchOutcome) :
    Except (List Char) (Option (List Char → FetchOutcome)) :=
  match attempt with
  | .success => .ok (some newConn)
  | .pgError _ => .ok none
  | .otherExn m => .error m

/-- `close()`: `if self.conn:` guards the backend call, so a null handle is a
no-op; on an open handle the backend `close` runs (and may itself fail). -/
def close (backendClose : (List Char → FetchOutcome) → Except (List Char) Unit) :
    Option (List Char → FetchOutcome) → Except (List Char) Unit
  | none => .ok ()
  | some c => backendClose c

/-! ### Schema-description builder -/

/-- Python `str.strip` (ASCII whitespace, which is all that occurs here). -/
def isPySpace (c : Char) : Bool :=
  c == ' ' || c == '\n' || c == '\t' || c == '\r' || c.toNat == 11 || c.toNat == 12

/-- Python `str.strip`. -/
def pyStrip (s : List Char) : List Char :=
  ((s.dropWhile isPySpace).reverse.dropWhile isPySpace).reverse
/-- `_get_column_descriptions`: the Column Descriptor Table, in insertion order. -/
def column_descriptions : List (List Char × List Char) :=
  [(cs "CODIGO_UNICO", cs "Código Único de la Invesión"),
   (cs "CODIGO_SNIP", cs "Código SNIP de la Inversión"),
   (cs "NOMBRE_INVERSION", cs "Nombre de la Inversión"),
   (cs "ESTADO", cs "Estado de la Inversión: ACTIVO / CERRADO / DESACTIVADO"),
   (cs "SITUACION", cs "Situación de la Inversión:  VIABLE /APROBADO / NO VIABLE / NO APROBADO / EN FORMULACION / EN REGISTRO"),
   (cs "MARCO", cs "Sistema de Inversión Pública: SNIP / INVIERTE"),
   (cs "TIPO_FORMATO", cs "Descripción del formato de inversión: PROYECTO DE INVERSIÓN / IOARR / PROGRAMA DE INVERSIÓN / PROYECTOS ESPECIALES"),
   (cs "UNIDAD_FORMULADORA_UF", cs "UF: Unidad Formuladora de la Inversión"),
   (cs "UNIDAD_EJECUTORA_INVERSIONES", cs "Nombre de  la Unidad Ejecutora de Inversiones en la Fase de Ejecución"),
   (cs "OPMI", cs "Nombre de la Oficina de Programación Multianual de Inversiones (OPMI) "),
   (cs "DEPARTAMENTO_OPMI", cs "Departamento de la OPMI (Oficina de Programación Multianual de Inversiones)"),
   (cs "CODIGO_EJECUTORA_PRESUPUESTAL", cs "Código de la Unidad Ejecutora Presupuestal (UEP) asignada a la Inversión"),
   (cs "NOMBRE_EJECUTORA_PRESUPUESTAL", cs "Nombre de la Unidad Ejecutora Presupuestal (UEP) asignada a la Inversión"),
   (cs "FUNCION", cs "Nombre de la Función"),
   (cs "DIVISION_FUNCIONAL", cs "Nombre de la División Funcional"),
   (cs "GRUPO_FUNCIONAL", cs "Nombre del Grupo Funcional"),
   (cs "BENEFICIARIOS", cs "Número de beneficiarios de la Inversión"),
   (cs "FECHA_REGISTRO", cs "Fecha de registro de la inversión"),
   (cs "FECHA_VIABILIDAD", cs "Fecha de la VIABILIDAD / APROBACIÓN de la Inversión"),
   (cs "COSTO_INVERSION_VIABLE", cs "Costo de la Inversión con la que fue declarado viable"),
   (cs "DEPARTAMENTO_INVERSION", cs "Departamento donde se ubica la Inversión"),
   (cs "TIPOLOGIA_DE_INVERSION", cs "Tipología registrada  de la Inversión"),
   (cs "EXPEDIENTE_TECNICO", cs "Indicador de registro de Expediente Técnico: SI / NO"),
   (cs "TIENE_FORMATO_08", cs "Indicador de si la Inversión tiene registro en el Formato 08 (Ejecución): SI / NO"),
   (cs "ETAPA_FORMATO_08_ACTUAL", cs "Etapa actual en la cual se encuentra la Inversión: \x27APROBACIÓN DE CONSISTENCIA (A)\x27, \x27EXPEDIENTE TÉCNICO (B)\x27, \x27EJECUCIÓN FÍSICA (C)\x27"),
   (cs "FECHA_INICIO_INVERSION", cs "Fecha que, según lo registrado en el Formato 08  correspondería al inicio programado de la inversión."),
   (cs "FECHA_FIN_INVERSION", cs "Fecha que, de acuerdo con lo consignado en el Formato 08 se consideraría como la finalización programada de la inversión."),
   (cs "COSTO_INVERSION_ACTUALIZADO", cs "Costo Total de la Inversión Actualizado y podría incluir Costo de Control Concurrente"),
   (cs "COSTO_CONTROVERSIAS", cs "Costo de controversias asociadas a la Inversión"),
   (cs "MONTO_CARTA_FIANZA", cs "Monto de la Carta Fianza asociada a la Inversión"),
   (cs "COSTO_TOTAL_INV_ACTUALIZADO", cs "Costo Total de la Inversión Actualizado"),
   (cs "DEVENGADO_ACUMULADO", cs "Monto devengado acumulado de la inversión"),
   (cs "PIM_AÑO_ACTUAL", cs "Monto PIM del año actual y también puede ser Presupuesto asignado"),
   (cs "DEVENGADO_AÑO_ATUAL", cs "Monto DEVENGADO del año actual"),
   (cs "AVANCE_FINANCIERO", cs "Avance financiero de la inversión: Devengado_año_actual/Monto_PIM"),
   (cs "REGISTRA_FORMATO_12B", cs "Indicador de registro del Formato F12B: SI / NO"),
   (cs "FECHA_ACTUALIZACION_F12B", cs "Fecha de actualziación del Formato F12B"),
   (cs "AVANCE_FISICO_INVERSION", cs "Avance físico de la inversión registrado en el Formato F12B"),
   (cs "AVANCE_EJECUCION_INVERSION", cs "Avance de ejecución de la inversión registrado en el Formato F12B"),
   (cs "FECHA_REGISTRO_SITUACION", cs "Fecha actualizada del registro de la situación de la inversión"),
   (cs "DESCRIPCION_ULTIMA_SITUACION", cs "Descripción correspondiente al último estado situacional de la inversión, según el reporte oficial emitido por la Unidad Ejecutora de Inversiones (UEI), el cual se encuentra vinculado a la fecha registrada en el campo FECHA_REGISTRO_SITUACION."),
   (cs "TIENE_FORMATO_09", cs "Indicador de si la Inversión tiene registro en el Formato 08 (Cierre): SI / NO"),
   (cs "ESTADO_REGISTRO_CIERRE", cs "Estado registrado en el fase del cierre de la Inversión"),
   (cs "FECHA_REGISTRO_CIERRE", cs "Fecha del registro de cierre de la Inversión"),
   (cs "NIVEL", cs "Nivel de gobierno de la Unidad Formuladora: GN (Gobiern nacional), GR (Gobiernos Regionales), GL (Gobiernos Locales)"),
   (cs "SECTOR", cs "Sector de gobierno de la Unidad Formuladora"),
   (cs "PLIEGO", cs "Pliego Entidad de ula Unidad Formuladora")]

/-- `_get_mandatory_response_fields` (returned verbatim, no strip). -/
def mandatory_response_fields : List Char :=
  cs "\nCAMPOS OBLIGATORIOS A MOSTRAR EN RESPUESTAS (cuando estén disponibles):\n- CODIGO_UNICO: Código Único de la Invesión\n- CODIGO_SNIP: Código SNIP de la Inversión\n- NOMBRE_INVERSION: Nombre de la Inversión\n- ESTADO: Estado de la Inversión: ACTIVO / CERRADO / DESACTIVADO\n- SITUACION: Situación de la Inversión:  VIABLE /APROBADO / NO VIABLE / NO APROBADO / EN FORMULACION / EN REGISTRO\n        "

/-- Raw text of `_get_filter_fields_info` before `.strip()`. -/
def filter_fields_raw : List Char :=
  cs "\nCAMPOS PARA FILTRAR INFORMACIÓN:\n- NIVEL: Nivel de gobierno de la Unidad Formuladora: GN (Gobiern nacional), GR (Gobiernos Regionales), GL (Gobiernos Locales)\n- SECTOR: Sector de gobierno de la Unidad Formuladora\n- PLIEGO: Pliego Entidad de ula Unidad Formuladora\n- TIPO_FORMATO: Descripción del formato de inversión: PROYECTO DE INVERSIÓN / IOARR / PROGRAMA DE INVERSIÓN / PROYECTOS ESPECIALES\n- UNIDAD_FORMULADORA_UF: UF: Unidad Formuladora de la Inversión\n- UNIDAD_EJECUTORA_INVERSIONES: Nombre de  la Unidad Ejecutora de Inversiones en la Fase de Ejecución\n- OPMI: Nombre de la Oficina de Programación Multianual de Inversiones (OPMI) \n- DEPARTAMENTO_OPMI: Departamento de la OPMI (Oficina de Programación Multianual de Inversiones)\n- NOMBRE_EJECUTORA_PRESUPUESTAL: Nombre de la Unidad Ejecutora Presupuestal (UEP) asignada a la Inversión\n- FUNCION: Nombre de la Función\n- DEPARTAMENTO_INVERSION: Departamento donde se ubica la Inversión\n- TIPOLOGIA_DE_INVERSION: Tipología registrada  de la Inversión\nLas regiones se deben convertir a mayúsculas sin tildes, por ejemplo convertir Huánuco a HUANUCO. Además \x27Lima Metropolitana\x27 se debe convertir a \x27LIMA\x27.\n        "

/-- Raw text of `_get_detailed_fields_query_info` before `.strip()`. -/
def detailed_fields_raw : List Char :=
  cs "\nCAMPOS DETALLADOS PARA CONSULTAS ESPECÍFICAS DE INVERSIÓN:\nCuando el usuario solicite información detallada sobre una inversión específica usando su código único, mostrar en una tabla:\n- CODIGO_UNICO\n- NOMBRE_INVERSION\n- ESTADO\n- SITUACION\n- TIPO_FORMATO\n- SECTOR\n- PLIEGO\n- NOMBRE_EJECUTORA_PRESUPUESTAL\n- FUNCION\n- FECHA_VIABILIDAD\n- COSTO_INVERSION_VIABLE\n- EXPEDIENTE TECNICO\n- COSTO_TOTAL_INV_ACTUALIZADO\n- DEVENGADO_ACUMULADO\n- AVANCE_FINANCIERO\n- PIM_AÑO_ACTUAL\n- DEVENGADO_AÑO_ACTUAL\n- AVANCE_FISICO_INVERSION\n- FECHA_REGISTRO_SITUACION\n- DESCRIPCION_ULTIMA_SITUACION\n- ENLACE_SSI\n\nNo es necesario motrar CODIGO_SNIP si no se solicitan.\n        "

/-- `_get_filter_fields_info` returns the stripped block. -/
def filter_fields_info : List Char := pyStrip filter_fields_raw

/-- `_get_detailed_fields_query_info` returns the stripped block. -/
def detailed_fields_query_info : List Char := pyStrip detailed_fields_raw

/-- One `"- NAME: description"` line of the column listing (with the trailing
newline appended by the loop in `get_database_info`). -/
def descLine (kv : List Char × List Char) : List Char :=
  cs "- " ++ kv.1 ++ cs ": " ++ kv.2 ++ cs "\n"

/-- `get_database_info` (the `buildSchemaInfo` surface), parametrized by the
`DB_TABLE_NAME` value. -/
def get_database_info (tableName : List Char) : List Char :=
  cs "\n\n" ++ mandatory_response_fields ++
  cs "\n\n" ++ filter_fields_info ++
  cs "\n\n" ++ detailed_fields_query_info ++
  cs "\n\nDESCRIPCIÓN DE COLUMNAS de la tabla " ++ tableName ++ cs ":\n" ++
  (column_descriptions.map descLine).flatten

/-- Number of occurrences of `pat` as a contiguous substring of `s`
(counting every starting position). -/
def countOcc (pat : List Char) : List Char → Nat
  | [] => if pfx pat [] then 1 else 0
  | c :: rest => (if pfx pat (c :: rest) then 1 else 0) + countOcc pat rest


/-- `pat` occurs in `s` starting at position `i`. -/
def occursAtB (pat s : List Char) (i : Nat) : Bool := pfx pat (s.drop i)

/-! ### Single-pass views of the uppercase pass (for the C1 analysis) -/

/-- Fuel core of `scan2`. -/
def scan2F (o0 o1 : List Char) (f : Char → Char) : Nat → List Char → List Char
  | _, [] => []
  | 0, s => s
  | fuel + 1, c :: rest =>
    if pfx p0 (c :: rest) = true then
      o0 ++ scan2F o0 o1 f fuel ((c :: rest).drop p0.length)
    else if pfx p1 (c :: rest) = true then
      o1 ++ scan2F o0 o1 f fuel ((c :: rest).drop p1.length)
    else f c :: scan2F o0 o1 f fuel rest

/-- Generic single left-to-right scan: each occurrence of `p0` (checked
first, as in the program) becomes `o0`, each occurrence of `p1` becomes `o1`,
every other character is mapped through `f`. -/
def scan2 (o0 o1 : List Char) (f : Char → Char) (s : List Char) : List Char :=
  scan2F o0 o1 f s.length s

/-- Single-pass view of the two marker-insertion `str.replace` passes of
`_selective_uppercase` (proved below to coincide with them). -/
def phase12 (s : List Char) : List Char := scan2 m0 m1 id s

/-- Modelled from the spec: uppercase the whole query EXCEPT occurrences of
the Case-Preservation Exception Set members, which stay byte-identical.  This
is the specification-side description of `_selective_uppercase`, used to
state C1. -/
def uppercase_except_spec (s : List Char) : List Char := scan2 p0 p1 upC s

/-- Single-pass view of the intermediate string after the first marker
restoration (`repl m0 p0`) has run on the uppercased phase-1/2 output. -/
def afterRestore0 (s : List Char) : List Char := scan2 p0 m1 upC s

/-- The shared core of the two placeholder markers. -/
def pcore : List Char := cs "PRESERVE_COLUMN"

/-! ### Basic facts about `pfx`, `occursB` and `repl` -/

theorem pfx_nil_left (b : List Char) : pfx [] b = true := by cases b <;> rfl

theorem pfx_cons_nil (c : Char) (a : List Char) : pfx (c :: a) [] = false := rfl

theorem pfx_cons_iff (c b : Char) (a bs : List Char) :
    pfx (c :: a) (b :: bs) = true ↔ c = b ∧ pfx a bs = true := by
  simp [pfx, Bool.and_eq_true, beq_iff_eq]

theorem pfx_append_self (a t : List Char) : pfx a (a ++ t) = true := by
  induction a with
  | nil => exact pfx_nil_left t
  | cons c a ih => simpa [pfx_cons_iff] using ih

theorem pfx_refl (a : List Char) : pfx a a = true := by
  simpa using pfx_append_self a []

theorem pfx_length_le (a b : List Char) (h : pfx a b = true) : a.length ≤ b.length := by
  induction a generalizing b with
  | nil => simp
  | cons c a ih =>
    cases b with
    | nil => simp [pfx_cons_nil] at h
    | cons d bs =>
      rw [pfx_cons_iff] at h
      simpa [List.length_cons] using Nat.succ_le_succ (ih bs h.2)

theorem pfx_take (a b : List Char) (h : pfx a b = true) : b.take a.length = a := by
  induction a generalizing b with
  | nil => simp
  | cons c a ih =>
    cases b with
    | nil => simp [pfx_cons_nil] at h
    | cons d bs =>
      rw [pfx_cons_iff] at h
      simp [List.take, ih bs h.2, h.1]

theorem pfx_of_take (a b : List Char) (h : b.take a.length = a) : pfx a b = true := by
  induction a generalizing b with
  | nil => exact pfx_nil_left b
  | cons c a ih =>
    cases b with
    | nil => simp at h
    | cons d bs =>
      simp [List.take] at h
      rw [pfx_cons_iff]
      exact ⟨h.1.symm, ih bs h.2⟩

theorem pfx_append_drop (a b : List Char) (h : pfx a b = true) :
    b = a ++ b.drop a.length := by
  conv_lhs => rw [← List.take_append_drop a.length b]
  rw [pfx_take a b h]

theorem pfx_head_eq (a w y : List Char) (ha : a ≠ []) (hw : w ≠ [])
    (h : pfx a (w ++ y) = true) : a.headI = w.headI := by
  cases a with
  | nil => exact absurd rfl ha
  | cons c as =>
    cases w with
    | nil => exact absurd rfl hw
    | cons d ws =>
      rw [List.cons_append, pfx_cons_iff] at h
      simpa [List.headI] using h.1

theorem pfx_mono_append (a b t : List Char) (h : pfx a b = true) :
    pfx a (b ++ t) = true := by
  induction a generalizing b with
  | nil => exact pfx_nil_left _
  | cons c a ih =>
    cases b with
    | nil => simp [pfx_cons_nil] at h
    | cons d bs =>
      rw [pfx_cons_iff] at h
      rw [List.cons_append, pfx_cons_iff]
      exact ⟨h.1, ih bs h.2⟩

theorem headI_mem_of_ne_nil (l : List Char) (h : l ≠ []) : l.headI ∈ l := by
  cases l with
  | nil => exact absurd rfl h
  | cons c t => exact List.mem_cons_self c t

theorem headI_cons_tail_eq (l : List Char) (h : l ≠ []) : l.headI :: l.tail = l := by
  cases l with
  | nil => exact absurd rfl h
  | cons c t => rfl

theorem pfx_cons_split (pat : List Char) (c : Char) (X : List Char)
    (h1 : pat ≠ []) (h : pfx pat (c :: X) = true) :
    pat.headI = c ∧ pfx pat.tail X = true := by
  cases pat with
  | nil => exact absurd rfl h1
  | cons a0 a2 =>
    rw [pfx_cons_iff] at h
    exact ⟨h.1, h.2⟩

theorem pfx_cons_build (pat : List Char) (c : Char) (X : List Char)
    (h1 : pat ≠ []) (hh : pat.headI = c) (ht : pfx pat.tail X = true) :
    pfx pat (c :: X) = true := by
  cases pat with
  | nil => exact absurd rfl h1
  | cons a0 a2 =>
    rw [pfx_cons_iff]
    exact ⟨hh, ht⟩

theorem occursB_nil (pat : List Char) : occursB pat [] = pfx pat [] := rfl

theorem occursB_cons (pat : List Char) (c : Char) (rest : List Char) :
    occursB pat (c :: rest) = (pfx pat (c :: rest) || occursB pat rest) := rfl

theorem occursB_of_pfx (pat s : List Char) (h : pfx pat s = true) :
    occursB pat s = true := by
  cases s with
  | nil => simpa [occursB_nil] using h
  | cons c rest => simp [occursB_cons, h]

theorem occursB_of_tail (pat : List Char) (c : Char) (rest : List Char)
    (h : occursB pat rest = true) : occursB pat (c :: rest) = true := by
  simp [occursB_cons, h]

theorem occursB_tail_false (pat : List Char) (c : Char) (rest : List Char)
    (h : occursB pat (c :: rest) = false) : occursB pat rest = false := by
  rw [occursB_cons] at h
  exact (Bool.or_eq_false_iff.mp h).2

theorem occursB_head_false (pat : List Char) (c : Char) (rest : List Char)
    (h : occursB pat (c :: rest) = false) : pfx pat (c :: rest) = false := by
  rw [occursB_cons] at h
  exact (Bool.or_eq_false_iff.mp h).1

theorem occursB_drop_false (pat s : List Char) (k : Nat)
    (h : occursB pat s = false) : occursB pat (s.drop k) = false := by
  induction s generalizing k with
  | nil => simpa using h
  | cons c rest ih =>
    cases k with
    | zero => exact h
    | succ k => exact ih k (occursB_tail_false pat c rest h)

theorem occursB_append_right (pat a b : List Char) (h : occursB pat b = true) :
    occursB pat (a ++ b) = true := by
  induction a with
  | nil => exact h
  | cons c a ih => exact occursB_of_tail pat c (a ++ b) ih

theorem occursB_append_false (pat x y : List Char)
    (hx : ∀ i, i < x.length → pfx pat (x.drop i ++ y) = false)
    (hy : occursB pat y = false) : occursB pat (x ++ y) = false := by
  induction x with
  | nil => exact hy
  | cons c xs ih =>
    rw [List.cons_append, occursB_cons, Bool.or_eq_false_iff]
    refine ⟨?_, ih (fun i hi => hx (i + 1) (by simpa using Nat.succ_lt_succ hi))⟩
    simpa using hx 0 (by simp)

theorem replFuel_congr (pat rep : List Char) :
    ∀ fuel1 fuel2 s, s.length ≤ fuel1 → s.length ≤ fuel2 →
      replFuel pat rep fuel1 s = replFuel pat rep fuel2 s := by
  intro fuel1
  induction fuel1 with
  | zero =>
    intro fuel2 s hs1 _
    have : s = [] := List.length_eq_zero.mp (Nat.le_zero.mp hs1)
    subst this
    cases fuel2 <;> rfl
  | succ f1 ih =>
    intro fuel2 s hs1 hs2
    cases s with
    | nil => cases fuel2 <;> rfl
    | cons c rest =>
      cases fuel2 with
      | zero => simp at hs2
      | succ f2 =>
        simp only [replFuel]
        simp only [List.length_cons] at hs1 hs2
        by_cases hm : pat ≠ [] ∧ pfx pat (c :: rest) = true
        · rw [if_pos hm, if_pos hm]
          have hp1 : 1 ≤ pat.length := by
            cases hpp : pat with
            | nil => exact absurd hpp hm.1
            | cons _ _ => simp
          have hd : ((c :: rest).drop pat.length).length ≤ f1 ∧
              ((c :: rest).drop pat.length).length ≤ f2 := by
            simp only [List.length_drop, List.length_cons]
            omega
          rw [ih f2 _ hd.1 hd.2]
        · rw [if_neg hm, if_neg hm]
          rw [ih f2 rest (by omega) (by omega)]

theorem repl_nil (pat rep : List Char) : repl pat rep [] = [] := rfl

theorem repl_match (pat rep s : List Char) (h1 : pat ≠ []) (h2 : pfx pat s = true) :
    repl pat rep s = rep ++ repl pat rep (s.drop pat.length) := by
  cases s with
  | nil =>
    cases pat with
    | nil => exact absurd rfl h1
    | cons c a => simp [pfx_cons_nil] at h2
  | cons c rest =>
    show replFuel pat rep (rest.length + 1) (c :: rest) = _
    rw [replFuel, if_pos ⟨h1, h2⟩]
    have hp1 : 1 ≤ pat.length := by
      cases hpp : pat with
      | nil => exact absurd hpp h1
      | cons _ _ => simp
    rw [replFuel_congr pat rep rest.length ((c :: rest).drop pat.length).length _
      (by simp only [List.length_drop, List.length_cons]; omega) le_rfl]
    rfl

theorem repl_step_neg (pat rep : List Char) (c : Char) (rest : List Char)
    (h : ¬(pat ≠ [] ∧ pfx pat (c :: rest) = true)) :
    repl pat rep (c :: rest) = c :: repl pat rep rest := by
  show replFuel pat rep (rest.length + 1) (c :: rest) = _
  rw [replFuel, if_neg h]
  rfl

theorem repl_nomatch (pat rep : List Char) (c : Char) (rest : List Char)
    (h : pfx pat (c :: rest) = false) :
    repl pat rep (c :: rest) = c :: repl pat rep rest := by
  apply repl_step_neg
  intro hc
  rw [hc.2] at h
  exact Bool.noConfusion h

/-- If no replacement text was inserted at the start of a match region (the
head of `rep` never occurs in `t`'s parent `a`), then a suffix `t` of `a`
matching at the start of `repl pat rep s` must already match at the start of
`s`. -/
theorem pfx_repl_transfer (pat rep a : List Char) (hrep : rep ≠ [])
    (hra : rep.headI ∉ a) :
    ∀ s t, t ≠ [] → (∃ u, u ++ t = a) → pfx t (repl pat rep s) = true →
      pfx t s = true := by
  intro s
  induction s with
  | nil =>
    intro t ht _ h
    rw [repl_nil] at h
    cases t with
    | nil => exact absurd rfl ht
    | cons c t2 => simp [pfx_cons_nil] at h
  | cons c rest ih =>
    intro t ht hta h
    by_cases hm : pat ≠ [] ∧ pfx pat (c :: rest) = true
    · rw [repl_match pat rep _ hm.1 hm.2] at h
      have hhead : t.headI = rep.headI := pfx_head_eq t rep _ ht hrep h
      exfalso
      apply hra
      rw [← hhead]
      obtain ⟨u, hu⟩ := hta
      cases t with
      | nil => exact absurd rfl ht
      | cons c2 t2 =>
        rw [← hu]
        exact List.mem_append_right u (List.mem_cons_self c2 t2)
    · rw [repl_step_neg pat rep c rest hm] at h
      cases t with
      | nil => exact absurd rfl ht
      | cons c2 t2 =>
        rw [pfx_cons_iff] at h
        rw [pfx_cons_iff]
        refine ⟨h.1, ?_⟩
        by_cases ht2 : t2 = []
        · subst ht2; exact pfx_nil_left rest
        · obtain ⟨u, hu⟩ := hta
          exact ih t2 ht2 ⟨u ++ [c2], by simpa using hu⟩ h.2

/-- Replacement never introduces a new occurrence of a pattern `a` that is
absent from the input, provided `a` cannot interlock with the replacement text
(`rep`'s first character does not occur in `a` and `a`'s first character does
not occur in `rep`). -/
theorem occursB_repl_false (pat rep a : List Char) (hrep : rep ≠ [])
    (ha : a ≠ []) (hra : rep.headI ∉ a) (har : a.headI ∉ rep) :
    ∀ n s, s.length ≤ n → occursB a s = false →
      occursB a (repl pat rep s) = false := by
  intro n
  induction n with
  | zero =>
    intro s hs _
    have : s = [] := List.length_eq_zero.mp (Nat.le_zero.mp hs)
    subst this
    rw [repl_nil, occursB_nil]
    cases a with
    | nil => exact absurd rfl ha
    | cons c a2 => exact pfx_cons_nil c a2
  | succ n ih =>
    intro s hs h
    cases s with
    | nil =>
      rw [repl_nil, occursB_nil]
      cases a with
      | nil => exact absurd rfl ha
      | cons c a2 => exact pfx_cons_nil c a2
    | cons c rest =>
      by_cases hm : pat ≠ [] ∧ pfx pat (c :: rest) = true
      · rw [repl_match pat rep _ hm.1 hm.2]
        apply occursB_append_false
        · intro i hi
          rw [Bool.eq_false_iff]
          intro hcon
          have hdne : rep.drop i ≠ [] := by
            rw [Ne, List.drop_eq_nil_iff, Nat.not_le]
            exact hi
          have hhead := pfx_head_eq a (rep.drop i) _ ha hdne hcon
          apply har
          rw [hhead]
          exact List.drop_subset i rep (headI_mem_of_ne_nil _ hdne)
        · have hlen : ((c :: rest).drop pat.length).length ≤ n := by
            have hp1 : 1 ≤ pat.length := by
              cases pat with
              | nil => exact absurd rfl hm.1
              | cons _ _ => simp
            simp only [List.length_drop, List.length_cons]
            simp only [List.length_cons] at hs
            omega
          exact ih _ hlen (occursB_drop_false a _ pat.length h)
      · rw [repl_step_neg pat rep c rest hm, occursB_cons, Bool.or_eq_false_iff]
        have hrest : occursB a rest = false := occursB_tail_false a c rest h
        refine ⟨?_, ih rest (by simp only [List.length_cons] at hs; omega) hrest⟩
        rw [Bool.eq_false_iff]
        intro hcon
        cases a with
        | nil => exact ha rfl
        | cons a0 a2 =>
          rw [pfx_cons_iff] at hcon
          have hpc : pfx (a0 :: a2) (c :: rest) = true := by
            rw [pfx_cons_iff]
            refine ⟨hcon.1, ?_⟩
            by_cases ha2 : a2 = []
            · subst ha2; exact pfx_nil_left rest
            · exact pfx_repl_transfer pat rep (a0 :: a2) hrep hra rest a2
                ha2 ⟨[a0], rfl⟩ hcon.2
          rw [occursB_cons, hpc] at h
          simp at h

/-- After `repl pat rep s` there is no occurrence of `pat` left, provided
`pat` and `rep` cannot interlock. -/
theorem occursB_repl_self_false (pat rep : List Char) (hpat : pat ≠ [])
    (hrep : rep ≠ []) (hrp : rep.headI ∉ pat) (hpr : pat.headI ∉ rep) :
    ∀ n s, s.length ≤ n → occursB pat (repl pat rep s) = false := by
  intro n
  induction n with
  | zero =>
    intro s hs
    have : s = [] := List.length_eq_zero.mp (Nat.le_zero.mp hs)
    subst this
    rw [repl_nil, occursB_nil]
    cases pat with
    | nil => exact absurd rfl hpat
    | cons c a2 => exact pfx_cons_nil c a2
  | succ n ih =>
    intro s hs
    cases s with
    | nil =>
      rw [repl_nil, occursB_nil]
      cases pat with
      | nil => exact absurd rfl hpat
      | cons c a2 => exact pfx_cons_nil c a2
    | cons c rest =>
      by_cases hm : pat ≠ [] ∧ pfx pat (c :: rest) = true
      · rw [repl_match pat rep _ hm.1 hm.2]
        apply occursB_append_false
        · intro i hi
          rw [Bool.eq_false_iff]
          intro hcon
          have hdne : rep.drop i ≠ [] := by
            rw [Ne, List.drop_eq_nil_iff, Nat.not_le]
            exact hi
          have hhead := pfx_head_eq pat (rep.drop i) _ hpat hdne hcon
          apply hpr
          rw [hhead]
          exact List.drop_subset i rep (headI_mem_of_ne_nil _ hdne)
        · have hlen : ((c :: rest).drop pat.length).length ≤ n := by
            have hp1 : 1 ≤ pat.length := by
              cases pat with
              | nil => exact absurd rfl hm.1
              | cons _ _ => simp
            simp only [List.length_drop, List.length_cons]
            simp only [List.length_cons] at hs
            omega
          exact ih _ hlen
      · rw [repl_step_neg pat rep c rest hm, occursB_cons, Bool.or_eq_false_iff]
        refine ⟨?_, ih rest (by simp only [List.length_cons] at hs; omega)⟩
        rw [Bool.eq_false_iff]
        intro hcon
        apply hm
        refine ⟨hpat, ?_⟩
        have hsplit := pfx_cons_split pat c _ hpat hcon
        apply pfx_cons_build pat c rest hpat hsplit.1
        by_cases ht : pat.tail = []
        · rw [ht]; exact pfx_nil_left rest
        · exact pfx_repl_transfer pat rep pat hrep hrp rest pat.tail ht
            ⟨[pat.headI], by simpa using headI_cons_tail_eq pat hpat⟩ hsplit.2

/-- If the pattern does not occur, `repl` is the identity. -/
theorem repl_id_of_no_occ (pat rep : List Char) :
    ∀ s, occursB pat s = false → repl pat rep s = s := by
  intro s
  induction s with
  | nil => intro _; exact repl_nil pat rep
  | cons c rest ih =>
    intro h
    have hpf : pfx pat (c :: rest) = false := occursB_head_false pat c rest h
    have hneg : ¬(pat ≠ [] ∧ pfx pat (c :: rest) = true) := by
      intro hc
      rw [hc.2] at hpf
      exact Bool.noConfusion hpf
    rw [repl_step_neg pat rep c rest hneg]
    rw [ih (occursB_tail_false pat c rest h)]

/-- Replacing a pattern by itself is the identity (the three keyword
conversions of the Normalization Rule Set are such identity rules). -/
theorem repl_id_self (pat : List Char) : ∀ n s, s.length ≤ n →
    repl pat pat s = s := by
  intro n
  induction n with
  | zero =>
    intro s hs
    have : s = [] := List.length_eq_zero.mp (Nat.le_zero.mp hs)
    subst this
    exact repl_nil pat pat
  | succ n ih =>
    intro s hs
    cases s with
    | nil => exact repl_nil pat pat
    | cons c rest =>
      by_cases hm : pat ≠ [] ∧ pfx pat (c :: rest) = true
      · rw [repl_match pat pat _ hm.1 hm.2]
        have hlen : ((c :: rest).drop pat.length).length ≤ n := by
          have hp1 : 1 ≤ pat.length := by
            cases pat with
            | nil => exact absurd rfl hm.1
            | cons _ _ => simp
          simp only [List.length_drop, List.length_cons]
          simp only [List.length_cons] at hs
          omega
        rw [ih _ hlen]
        exact (pfx_append_drop pat _ hm.2).symm
      · rw [repl_step_neg pat pat c rest hm]
        rw [ih rest (by simp only [List.length_cons] at hs; omega)]

/-! ### C7 : the Normalization Rule Set is idempotent -/

theorem repl_id_self_all (pat s : List Char) : repl pat pat s = s :=
  repl_id_self pat s.length s le_rfl

/-- The three keyword conversions are identity replacements, so normalization
reduces to the two column-name rules. -/
theorem convert_unfold (q : List Char) :
    convert_sqlite_to_postgres q = repl bigP1 p1 (repl bigP0 p0 q) := by
  unfold convert_sqlite_to_postgres
  rw [repl_id_self_all, repl_id_self_all, repl_id_self_all]

theorem no_bigP0_after_convert (q : List Char) :
    occursB bigP0 (convert_sqlite_to_postgres q) = false := by
  rw [convert_unfold]
  apply occursB_repl_false bigP1 p1 bigP0 (by decide) (by decide) (by decide)
    (by decide) (repl bigP0 p0 q).length _ le_rfl
  exact occursB_repl_self_false bigP0 p0 (by decide) (by decide) (by decide)
    (by decide) q.length q le_rfl

theorem no_bigP1_after_convert (q : List Char) :
    occursB bigP1 (convert_sqlite_to_postgres q) = false := by
  rw [convert_unfold]
  exact occursB_repl_self_false bigP1 p1 (by decide) (by decide) (by decide)
    (by decide) (repl bigP0 p0 q).length _ le_rfl

/-- C7: the dialect normalization is idempotent — applying
`_convert_sqlite_to_postgres` twice yields exactly the same string as applying
it once, for every input query string. -/
theorem claim7_normalization_idempotent (q : List Char) :
    convert_sqlite_to_postgres (convert_sqlite_to_postgres q) =
      convert_sqlite_to_postgres q := by
  conv_lhs => rw [convert_unfold]
  rw [repl_id_of_no_occ bigP0 p0 _ (no_bigP0_after_convert q)]
  rw [repl_id_of_no_occ bigP1 p1 _ (no_bigP1_after_convert q)]

/-! ### C3, C4, C10 : result shapes of `executeQuery` -/

/-- C3: when the fetch raises, `executeQuery` catches the exception and
returns the `json.dumps` rendering of an object with exactly the two keys
`"PostgreSQL query failed with error"` (the exception message) and `"query"`
(the post-normalization query text); being a total function of the outcome,
it never propagates the exception. -/
theorem claim3_error_payload (fetch : List Char → FetchOutcome) (q m : List Char)
    (h : fetch (backendQuery q) = .exn m) :
    executeQuery (some fetch) q =
      pyJsonObjStr [(errKey, m), (cs "query", backendQuery q)] ∧
    ([(errKey, m), (cs "query", backendQuery q)]).map Prod.fst =
      [errKey, cs "query"] := by
  refine ⟨?_, rfl⟩
  show (match fetch (backendQuery q) with
    | .exn m => pyJsonObjStr [(errKey, m), (cs "query", backendQuery q)]
    | .rows cols rs =>
      if rs.isEmpty then pyJsonStr emptyResultMsg
      else pandas_split_json cols rs) = _
  rw [h]

theorem claim3_error_payload_witness :
    executeQuery (some (fun _ => .exn (cs "relation does not exist")))
        (cs "SELECT nada") =
      pyJsonObjStr [(errKey, cs "relation does not exist"),
        (cs "query", backendQuery (cs "SELECT nada"))] ∧
    ([(errKey, cs "relation does not exist"),
        (cs "query", backendQuery (cs "SELECT nada"))]).map Prod.fst =
      [errKey, cs "query"] :=
  claim3_error_payload (fun _ => .exn (cs "relation does not exist"))
    (cs "SELECT nada") (cs "relation does not exist") rfl

/-- C4: a fetch returning zero rows makes `executeQuery` return the
`json.dumps` rendering of the fixed informational string — which is a JSON
string, not an object: it differs from every error payload and from every
tabular payload (both of which start with a brace rather than a quote). -/
theorem claim4_empty_result (fetch : List Char → FetchOutcome)
    (q : List Char) (cols : List (List Char))
    (h : fetch (backendQuery q) = .rows cols []) :
    executeQuery (some fetch) q = pyJsonStr emptyResultMsg ∧
    (∀ m pq, pyJsonStr emptyResultMsg ≠ pyJsonObjStr [(errKey, m), (cs "query", pq)]) ∧
    (∀ cols2 rows2, pyJsonStr emptyResultMsg ≠ pandas_split_json cols2 rows2) := by
  refine ⟨?_, ?_, ?_⟩
  · show (match fetch (backendQuery q) with
      | .exn m => pyJsonObjStr [(errKey, m), (cs "query", backendQuery q)]
      | .rows cols rs =>
        if rs.isEmpty then pyJsonStr emptyResultMsg
        else pandas_split_json cols rs) = _
    rw [h]
    rfl
  · intro m pq heq
    have hh := congrArg List.headI heq
    simp only [pyJsonStr, pyJsonObjStr, List.headI] at hh
    exact absurd hh (by decide)
  · intro cols2 rows2 heq
    have hh := congrArg List.headI heq
    simp only [pyJsonStr, pandas_split_json, List.headI] at hh
    exact absurd hh (by decide)

theorem claim4_empty_result_witness :
    executeQuery (some (fun _ => .rows [cs "A"] [])) (cs "SELECT 1") =
      pyJsonStr emptyResultMsg ∧
    (∀ m pq, pyJsonStr emptyResultMsg ≠ pyJsonObjStr [(errKey, m), (cs "query", pq)]) ∧
    (∀ cols2 rows2, pyJsonStr emptyResultMsg ≠ pandas_split_json cols2 rows2) :=
  claim4_empty_result (fun _ => .rows [cs "A"] []) (cs "SELECT 1") [cs "A"] rfl

/-- C10: executing a query while the plugin is unconnected (`self.conn` is
`None`) does not raise: the `AttributeError` from the fetch on the null
handle is caught by the catch-all handler and the structured error object
with the error-description key and the `"query"` key is returned. -/
theorem claim10_unconnected_execute (q : List Char) :
    executeQuery none q =
      pyJsonObjStr [(errKey, noneFetchMsg), (cs "query", backendQuery q)] := rfl

/-! ### C5 : environment validation -/

theorem occursB_joinSep (sep w : List Char) :
    ∀ l : List (List Char), w ∈ l → occursB w (joinSep sep l) = true := by
  intro l
  induction l with
  | nil => intro h; exact absurd h (List.not_mem_nil w)
  | cons x rest ih =>
    intro h
    cases rest with
    | nil =>
      have : w = x := by
        rcases List.mem_cons.mp h with h1 | h1
        · exact h1
        · exact absurd h1 (List.not_mem_nil w)
      subst this
      show occursB w w = true
      exact occursB_of_pfx w w (pfx_refl w)
    | cons y rest2 =>
      show occursB w (x ++ sep ++ joinSep sep (y :: rest2)) = true
      rcases List.mem_cons.mp h with h1 | h1
      · subst h1
        rw [List.append_assoc]
        exact occursB_of_pfx _ _ (pfx_mono_append w w _ (pfx_refl w))
      · exact occursB_append_right w _ _ (ih h1)

/-- C5: if any required environment variable is absent, the module-level
validation fails (before any construction or connection attempt can happen),
and the single error message names every missing variable. -/
theorem claim5_missing_env (env : List (List Char)) (v : List Char)
    (h1 : v ∈ required_env_vars) (h2 : ¬ env.contains v = true) :
    module_init env = .error (envErrorMsg env) ∧
    v ∈ missing_vars env ∧
    (∀ w ∈ missing_vars env, occursB w (envErrorMsg env) = true) := by
  have hv : v ∈ missing_vars env := by
    rw [missing_vars, List.mem_filter]
    exact ⟨h1, by simpa using h2⟩
  refine ⟨?_, hv, ?_⟩
  · rw [module_init, if_neg]
    intro hc
    rw [List.isEmpty_iff] at hc
    rw [hc] at hv
    exact List.not_mem_nil v hv
  · intro w hw
    rw [envErrorMsg]
    exact occursB_append_right w _ _ (occursB_joinSep _ w _ hw)

theorem claim5_missing_env_witness :
    module_init [cs "DB_HOST", cs "DB_PORT", cs "DB_NAME"] =
      .error (envErrorMsg [cs "DB_HOST", cs "DB_PORT", cs "DB_NAME"]) ∧
    cs "DB_USER" ∈ missing_vars [cs "DB_HOST", cs "DB_PORT", cs "DB_NAME"] ∧
    (∀ w ∈ missing_vars [cs "DB_HOST", cs "DB_PORT", cs "DB_NAME"],
      occursB w (envErrorMsg [cs "DB_HOST", cs "DB_PORT", cs "DB_NAME"]) = true) :=
  claim5_missing_env [cs "DB_HOST", cs "DB_PORT", cs "DB_NAME"] (cs "DB_USER")
    (by decide) (by decide)

/-! ### C6 : connection failures -/

/-- C6 counterexample: the claim says every failure of `connect()` is caught
inside it; but a non-`PostgresError` exception (the kind an unreachable
backend produces) is not caught by the `except asyncpg.PostgresError` branch
and propagates out of `connect()`. -/
theorem claim6_counterexample :
    connect (.otherExn (cs "OSError: Connect call failed")) (fun _ => .exn []) =
      .error (cs "OSError: Connect call failed") ∧
    connect (.otherExn (cs "OSError: Connect call failed")) (fun _ => .exn []) ≠
      .ok none := by
  exact ⟨rfl, by intro h; exact Except.noConfusion h⟩

/-- C6 (amended): a `connect()` failure raising `asyncpg.PostgresError` is
caught inside `connect()`, logged, and leaves the handle null, so the hosting
session can start with a disabled plugin; failures raising any other
exception propagate. -/
theorem claim6_pg_error_caught (m : List Char)
    (f : List Char → FetchOutcome) :
    connect (.pgError m) f = .ok none ∧
    connect .success f = .ok (some f) := ⟨rfl, rfl⟩

/-! ### C9 : close on a null handle -/

/-- C9: `close()` on a null handle (never connected, or left null by a
failed `connect()`) performs no backend call and returns without raising,
whatever the backend close behaviour would be. -/
theorem claim9_close_noop
    (backendClose : (List Char → FetchOutcome) → Except (List Char) Unit)
    (m : List Char) (f : List Char → FetchOutcome) :
    close backendClose none = .ok () ∧
    connect (.pgError m) f = .ok none := ⟨rfl, rfl⟩

/-! ### C2 : serialization of non-empty results -/

/-- C2 counterexample: for the result set with columns `["A","B"]` and rows
`[(1,"x"),(2,"y")]` the claim predicts a payload with an `"index"` array;
the code passes `index=False` to `to_json`, so the actual payload has no
`"index"` key and differs from the claimed string. -/
theorem claim2_counterexample :
    executeQuery (some (fun _ => .rows [cs "A", cs "B"]
        [[.vint 1, .vstr (cs "x")], [.vint 2, .vstr (cs "y")]])) (cs "SELECT 1") ≠
      cs "\x7b\"columns\":[\"A\",\"B\"],\"index\":[0,1],\"data\":[[1,\"x\"],[2,\"y\"]]\x7d" := by
  decide

/-- C2 (amended): a successful non-empty result is serialized in split
orientation with a `"columns"` array and a `"data"` array of row arrays and
no `"index"` key; columns `["A","B"]` with rows `[(1,"x"),(2,"y")]` serialize
to the split payload without an index. -/
theorem claim2_split_serialization (fetch : List Char → FetchOutcome)
    (q : List Char) (cols : List (List Char)) (rows : List (List PgVal))
    (hne : rows ≠ []) (h : fetch (backendQuery q) = .rows cols rows) :
    executeQuery (some fetch) q = pandas_split_json cols rows ∧
    pandas_split_json [cs "A", cs "B"]
        [[.vint 1, .vstr (cs "x")], [.vint 2, .vstr (cs "y")]] =
      cs "\x7b\"columns\":[\"A\",\"B\"],\"data\":[[1,\"x\"],[2,\"y\"]]\x7d" := by
  refine ⟨?_, by decide⟩
  show (match fetch (backendQuery q) with
    | .exn m => pyJsonObjStr [(errKey, m), (cs "query", backendQuery q)]
    | .rows cols rs =>
      if rs.isEmpty then pyJsonStr emptyResultMsg
      else pandas_split_json cols rs) = _
  rw [h]
  show (if rows.isEmpty = true then pyJsonStr emptyResultMsg
    else pandas_split_json cols rows) = _
  rw [if_neg (fun hc => hne (List.isEmpty_iff.mp hc))]

theorem claim2_split_serialization_witness :
    executeQuery (some (fun _ => .rows [cs "A", cs "B"]
        [[.vint 1, .vstr (cs "x")], [.vint 2, .vstr (cs "y")]])) (cs "SELECT 1") =
      pandas_split_json [cs "A", cs "B"]
        [[.vint 1, .vstr (cs "x")], [.vint 2, .vstr (cs "y")]] ∧
    pandas_split_json [cs "A", cs "B"]
        [[.vint 1, .vstr (cs "x")], [.vint 2, .vstr (cs "y")]] =
      cs "\x7b\"columns\":[\"A\",\"B\"],\"data\":[[1,\"x\"],[2,\"y\"]]\x7d" :=
  claim2_split_serialization (fun _ => .rows [cs "A", cs "B"]
      [[.vint 1, .vstr (cs "x")], [.vint 2, .vstr (cs "y")]]) (cs "SELECT 1")
    [cs "A", cs "B"] [[.vint 1, .vstr (cs "x")], [.vint 2, .vstr (cs "y")]]
    (by decide) rfl

/-! ### C8 : the schema text and the Column Descriptor Table -/

set_option maxRecDepth 40000 in
/-- C8 counterexample: the schema text does not contain every key exactly
once — `FUNCION` (a key of the Column Descriptor Table) occurs at the two
distinct positions 1240 and 1863 of the text built for table `inversiones`
(it appears in the filter block, in the detail block, in its own description
line and inside `DIVISION_FUNCIONAL`/`GRUPO_FUNCIONAL`). -/
theorem claim8_counterexample :
    ¬ (∀ tableName k, k ∈ column_descriptions.map Prod.fst →
        ∃! i, occursAtB k (get_database_info tableName) i = true) := by
  intro h
  obtain ⟨i, _, huniq⟩ := h (cs "inversiones") (cs "FUNCION") (by decide)
  have h1 : (1240 : Nat) = i := huniq 1240 (by decide)
  have h2 : (1863 : Nat) = i := huniq 1863 (by decide)
  exact absurd (h1.trans h2.symm) (by decide)

theorem occursB_descLines (kv : List Char × List Char) :
    ∀ l : List (List Char × List Char), kv ∈ l →
      occursB (cs "- " ++ kv.1 ++ cs ": " ++ kv.2) ((l.map descLine).flatten) = true := by
  intro l
  induction l with
  | nil => intro h; exact absurd h (List.not_mem_nil kv)
  | cons x rest ih =>
    intro h
    show occursB _ (descLine x ++ (rest.map descLine).flatten) = true
    rcases List.mem_cons.mp h with h1 | h1
    · subst h1
      apply occursB_of_pfx
      have hsh : descLine kv ++ (rest.map descLine).flatten =
          (cs "- " ++ kv.1 ++ cs ": " ++ kv.2) ++
            (cs "\n" ++ (rest.map descLine).flatten) := by
        simp [descLine, List.append_assoc]
      rw [hsh]
      exact pfx_append_self _ _
    · exact occursB_append_right _ _ _ (ih h1)

/-- C8 (amended): the schema text contains, for every key of the Column
Descriptor Table, its full `"- KEY: description"` line (so every key occurs,
prefixed with `"- "`), and the text ends with the description lines rendered
in the insertion order of the table; keys may additionally occur elsewhere in
the text, so "exactly once" does not hold. -/
theorem claim8_lines_present (tableName : List Char)
    (kv : List Char × List Char) (h : kv ∈ column_descriptions) :
    occursB (cs "- " ++ kv.1 ++ cs ": " ++ kv.2) (get_database_info tableName) = true ∧
    ∃ pre, get_database_info tableName =
      pre ++ (column_descriptions.map descLine).flatten := by
  constructor
  · exact occursB_append_right _ _ _ (occursB_descLines kv _ h)
  · exact ⟨_, rfl⟩

theorem claim8_lines_present_witness :
    occursB (cs "- " ++ (cs "CODIGO_UNICO", cs "Código Único de la Invesión").1 ++
        cs ": " ++ (cs "CODIGO_UNICO", cs "Código Único de la Invesión").2)
      (get_database_info (cs "inversiones")) = true ∧
    ∃ pre, get_database_info (cs "inversiones") =
      pre ++ (column_descriptions.map descLine).flatten :=
  claim8_lines_present (cs "inversiones")
    (cs "CODIGO_UNICO", cs "Código Único de la Invesión") (by decide)

/-! ### Additional toolkit for the C1 analysis -/

theorem occursB_nil_pat (s : List Char) : occursB [] s = true := by
  cases s with
  | nil => rfl
  | cons c rest => rw [occursB_cons, pfx_nil_left]; rfl

theorem occursB_append_left (pat : List Char) :
    ∀ a b, occursB pat a = true → occursB pat (a ++ b) = true := by
  intro a
  induction a with
  | nil =>
    intro b h
    rw [occursB_nil] at h
    cases pat with
    | nil => exact occursB_nil_pat b
    | cons c p2 => exact Bool.noConfusion (h.symm.trans (pfx_cons_nil c p2))
  | cons c a2 ih =>
    intro b h
    rw [occursB_cons] at h
    rw [List.cons_append, occursB_cons]
    rcases Bool.or_eq_true_iff.mp h with h1 | h1
    · have hmono := pfx_mono_append pat (c :: a2) b h1
      rw [List.cons_append] at hmono
      rw [hmono]
      rfl
    · rw [ih b h1]
      simp

theorem pfx_append_cases (y : List Char) :
    ∀ x b, pfx y (x ++ b) = true →
      (y.length ≤ x.length ∧ pfx y x = true) ∨
      (x.length < y.length ∧ y.take x.length = x ∧ pfx (y.drop x.length) b = true) := by
  induction y with
  | nil => intro x b _; left; exact ⟨by simp, pfx_nil_left x⟩
  | cons c ys ih =>
    intro x b h
    cases x with
    | nil =>
      right
      exact ⟨by simp, by simp, h⟩
    | cons d xs =>
      rw [List.cons_append, pfx_cons_iff] at h
      rcases ih xs b h.2 with ⟨h1, h2⟩ | ⟨h1, h2, h3⟩
      · left
        refine ⟨by simpa using Nat.succ_le_succ h1, ?_⟩
        rw [pfx_cons_iff]
        exact ⟨h.1, h2⟩
      · right
        refine ⟨by simpa using Nat.succ_lt_succ h1, ?_, ?_⟩
        · simp only [List.length_cons, List.take_succ_cons]
          rw [h2, h.1]
        · simpa using h3
  
theorem repl_append_skip (pat rep : List Char) :
    ∀ a b, (∀ i, i < a.length → pfx pat (a.drop i ++ b) = false) →
      repl pat rep (a ++ b) = a ++ repl pat rep b := by
  intro a
  induction a with
  | nil => intro b _; rfl
  | cons x a2 ih =>
    intro b h
    have h0 : pfx pat ((x :: a2) ++ b) = false := by simpa using h 0 (by simp)
    rw [List.cons_append] at h0 ⊢
    rw [repl_nomatch pat rep x (a2 ++ b) h0]
    rw [ih b (fun i hi => by
      have h2 := h (i + 1) (by simpa using Nat.succ_lt_succ hi)
      simpa using h2)]
    rfl

theorem pfx_false_head_notin (pat a b : List Char) (hpat : pat ≠ [])
    (hn : pat.headI ∉ a) : ∀ i, i < a.length → pfx pat (a.drop i ++ b) = false := by
  intro i hi
  rw [Bool.eq_false_iff]
  intro hcon
  have hdne : a.drop i ≠ [] := by
    rw [Ne, List.drop_eq_nil_iff, Nat.not_le]
    exact hi
  have hhead := pfx_head_eq pat (a.drop i) _ hpat hdne hcon
  apply hn
  rw [hhead]
  exact List.drop_subset i a (headI_mem_of_ne_nil _ hdne)

theorem upL_nil : upL [] = [] := rfl

theorem upL_cons (c : Char) (s : List Char) : upL (c :: s) = upC c :: upL s := rfl

theorem upL_append (a b : List Char) : upL (a ++ b) = upL a ++ upL b :=
  List.map_append upC a b

theorem upL_drop (s : List Char) (k : Nat) : upL (s.drop k) = (upL s).drop k := by
  simp [upL, List.map_drop]

theorem take_one_headI (t : List Char) (h : t ≠ []) : t.take 1 = [t.headI] := by
  cases t with
  | nil => exact absurd rfl h
  | cons c r => rfl

theorem scan2F_congr (o0 o1 : List Char) (f : Char → Char) :
    ∀ fuel1 fuel2 s, s.length ≤ fuel1 → s.length ≤ fuel2 →
      scan2F o0 o1 f fuel1 s = scan2F o0 o1 f fuel2 s := by
  intro fuel1
  induction fuel1 with
  | zero =>
    intro fuel2 s hs1 _
    have : s = [] := List.length_eq_zero.mp (Nat.le_zero.mp hs1)
    subst this
    cases fuel2 <;> rfl
  | succ f1 ih =>
    intro fuel2 s hs1 hs2
    cases s with
    | nil => cases fuel2 <;> rfl
    | cons c rest =>
      cases fuel2 with
      | zero => simp at hs2
      | succ f2 =>
        simp only [scan2F]
        simp only [List.length_cons] at hs1 hs2
        by_cases hm0 : pfx p0 (c :: rest) = true
        · rw [if_pos hm0, if_pos hm0]
          have hd : ((c :: rest).drop p0.length).length ≤ f1 ∧
              ((c :: rest).drop p0.length).length ≤ f2 := by
            have : 1 ≤ p0.length := by decide
            simp only [List.length_drop, List.length_cons]
            omega
          rw [ih f2 _ hd.1 hd.2]
        · rw [if_neg hm0, if_neg hm0]
          by_cases hm1 : pfx p1 (c :: rest) = true
          · rw [if_pos hm1, if_pos hm1]
            have hd : ((c :: rest).drop p1.length).length ≤ f1 ∧
                ((c :: rest).drop p1.length).length ≤ f2 := by
              have : 1 ≤ p1.length := by decide
              simp only [List.length_drop, List.length_cons]
              omega
            rw [ih f2 _ hd.1 hd.2]
          · rw [if_neg hm1, if_neg hm1]
            rw [ih f2 rest (by omega) (by omega)]

theorem scan2_nil (o0 o1 : List Char) (f : Char → Char) : scan2 o0 o1 f [] = [] := rfl

theorem scan2_p0 (o0 o1 : List Char) (f : Char → Char) (s : List Char)
    (h : pfx p0 s = true) :
    scan2 o0 o1 f s = o0 ++ scan2 o0 o1 f (s.drop p0.length) := by
  cases s with
  | nil => exact absurd h (by decide)
  | cons c rest =>
    show scan2F o0 o1 f (rest.length + 1) (c :: rest) = _
    rw [scan2F, if_pos h]
    rw [scan2F_congr o0 o1 f rest.length ((c :: rest).drop p0.length).length _
      (by have : 1 ≤ p0.length := by decide
          simp only [List.length_drop, List.length_cons]; omega) le_rfl]
    rfl

theorem scan2_p1 (o0 o1 : List Char) (f : Char → Char) (s : List Char)
    (h0 : pfx p0 s = false) (h : pfx p1 s = true) :
    scan2 o0 o1 f s = o1 ++ scan2 o0 o1 f (s.drop p1.length) := by
  cases s with
  | nil => exact absurd h (by decide)
  | cons c rest =>
    show scan2F o0 o1 f (rest.length + 1) (c :: rest) = _
    rw [scan2F, if_neg (by rw [h0]; exact Bool.noConfusion), if_pos h]
    rw [scan2F_congr o0 o1 f rest.length ((c :: rest).drop p1.length).length _
      (by have : 1 ≤ p1.length := by decide
          simp only [List.length_drop, List.length_cons]; omega) le_rfl]
    rfl

theorem scan2_cons (o0 o1 : List Char) (f : Char → Char) (c : Char) (rest : List Char)
    (h0 : pfx p0 (c :: rest) = false) (h1 : pfx p1 (c :: rest) = false) :
    scan2 o0 o1 f (c :: rest) = f c :: scan2 o0 o1 f rest := by
  show scan2F o0 o1 f (rest.length + 1) (c :: rest) = _
  rw [scan2F, if_neg (by rw [h0]; exact Bool.noConfusion),
    if_neg (by rw [h1]; exact Bool.noConfusion)]
  rfl

/-- Transfer lemma with explicit suffix checks: if no nonempty proper suffix
of `a` can sit at the start of the replacement text `rep` (and proper
suffixes of `a` are no longer than `rep`), then a proper suffix of `a`
matching at the start of `repl pat rep s` already matches at the start of
`s`. -/
theorem pfx_repl_transfer_tb (pat rep a : List Char) (_hrep : rep ≠ [])
    (hsuf : ∀ j, 1 ≤ j → j < a.length → pfx (a.drop j) rep = false)
    (hlen : a.length ≤ rep.length + 1) :
    ∀ s t, t ≠ [] → (∃ u, u ≠ [] ∧ u ++ t = a) → pfx t (repl pat rep s) = true →
      pfx t s = true := by
  intro s
  induction s with
  | nil =>
    intro t ht _ h
    rw [repl_nil] at h
    cases t with
    | nil => exact absurd rfl ht
    | cons c t2 => simp [pfx_cons_nil] at h
  | cons c rest ih =>
    intro t ht hta h
    by_cases hm : pat ≠ [] ∧ pfx pat (c :: rest) = true
    · exfalso
      rw [repl_match pat rep _ hm.1 hm.2] at h
      obtain ⟨u, hu1, hu2⟩ := hta
      have htj : t = a.drop u.length := by rw [← hu2, List.drop_left]
      have hj1 : 1 ≤ u.length := by
        cases u with
        | nil => exact absurd rfl hu1
        | cons _ _ => simp
      have hjlt : u.length < a.length := by
        rw [← hu2, List.length_append]
        cases t with
        | nil => exact absurd rfl ht
        | cons _ _ => simp
      rcases pfx_append_cases t rep _ h with ⟨_, h2⟩ | ⟨h1, _, _⟩
      · rw [htj] at h2
        rw [hsuf u.length hj1 hjlt] at h2
        exact Bool.noConfusion h2
      · have hlt : t.length = a.length - u.length := by
          rw [← hu2, List.length_append]
          omega
        omega
    · rw [repl_step_neg pat rep c rest hm] at h
      have hsplit := pfx_cons_split t c _ ht h
      apply pfx_cons_build t c rest ht hsplit.1
      by_cases htl : t.tail = []
      · rw [htl]; exact pfx_nil_left rest
      · obtain ⟨u, hu1, hu2⟩ := hta
        refine ih t.tail htl ⟨u ++ [t.headI], by simp, ?_⟩ hsplit.2
        rw [List.append_assoc, List.singleton_append, headI_cons_tail_eq t ht, hu2]

theorem phase12_p0 (s : List Char) (h : pfx p0 s = true) :
    phase12 s = m0 ++ phase12 (s.drop p0.length) := scan2_p0 m0 m1 id s h

theorem phase12_p1 (s : List Char) (h0 : pfx p0 s = false) (h : pfx p1 s = true) :
    phase12 s = m1 ++ phase12 (s.drop p1.length) := scan2_p1 m0 m1 id s h0 h

theorem phase12_cons (c : Char) (rest : List Char)
    (h0 : pfx p0 (c :: rest) = false) (h1 : pfx p1 (c :: rest) = false) :
    phase12 (c :: rest) = c :: phase12 rest := scan2_cons m0 m1 id c rest h0 h1

/-- The two sequential marker-insertion passes of `_selective_uppercase`
coincide with the single left-to-right scan `phase12`. -/
theorem phase12_eq_repl : ∀ n s, s.length ≤ n →
    repl p1 m1 (repl p0 m0 s) = phase12 s := by
  intro n
  induction n with
  | zero =>
    intro s hs
    have : s = [] := List.length_eq_zero.mp (Nat.le_zero.mp hs)
    subst this
    rfl
  | succ n ih =>
    intro s hs
    cases s with
    | nil => rfl
    | cons c rest =>
      simp only [List.length_cons] at hs
      by_cases h0 : pfx p0 (c :: rest) = true
      · rw [repl_match p0 m0 _ (by decide) h0]
        rw [repl_append_skip p1 m1 m0 _
          (pfx_false_head_notin p1 m0 _ (by decide) (by decide))]
        rw [ih _ (by
          have : 1 ≤ p0.length := by decide
          simp only [List.length_drop, List.length_cons]
          omega)]
        rw [phase12_p0 _ h0]
      · by_cases h1 : pfx p1 (c :: rest) = true
        · have hb0 : pfx p0 (c :: rest) = false := Bool.eq_false_iff.mpr h0
          have hs1 : (c :: rest) = p1 ++ (c :: rest).drop p1.length :=
            pfx_append_drop p1 _ h1
          calc repl p1 m1 (repl p0 m0 (c :: rest))
              = repl p1 m1 (repl p0 m0 (p1 ++ (c :: rest).drop p1.length)) := by
                rw [← hs1]
            _ = repl p1 m1 (p1 ++ repl p0 m0 ((c :: rest).drop p1.length)) := by
                rw [repl_append_skip p0 m0 p1 _
                  (pfx_false_head_notin p0 p1 _ (by decide) (by decide))]
            _ = m1 ++ repl p1 m1 (repl p0 m0 ((c :: rest).drop p1.length)) := by
                rw [repl_match p1 m1 _ (by decide) (pfx_append_self p1 _),
                  List.drop_left]
            _ = m1 ++ phase12 ((c :: rest).drop p1.length) := by
                rw [ih _ (by
                  have : 1 ≤ p1.length := by decide
                  simp only [List.length_drop, List.length_cons]
                  omega)]
            _ = phase12 (c :: rest) := (phase12_p1 _ hb0 h1).symm
        · have hb0 : pfx p0 (c :: rest) = false := Bool.eq_false_iff.mpr h0
          have hb1 : pfx p1 (c :: rest) = false := Bool.eq_false_iff.mpr h1
          rw [repl_nomatch p0 m0 c rest hb0]
          have hnom : pfx p1 (c :: repl p0 m0 rest) = false := by
            rw [Bool.eq_false_iff]
            intro hcon
            have hsplit := pfx_cons_split p1 c _ (by decide) hcon
            have htr : pfx p1.tail rest = true := by
              refine pfx_repl_transfer_tb p0 m0 p1 (by decide) (by decide)
                (by decide) rest p1.tail (by decide)
                ⟨[p1.headI], by simp, by simpa using headI_cons_tail_eq p1 (by decide)⟩
                hsplit.2
            have : pfx p1 (c :: rest) = true :=
              pfx_cons_build p1 c rest (by decide) hsplit.1 htr
            exact h1 this
          rw [repl_step_neg p1 m1 c _ (fun hc => by
            rw [hc.2] at hnom; exact Bool.noConfusion hnom)]
          rw [ih rest (by omega)]
          rw [phase12_cons c rest hb0 hb1]

/-- Core propagation lemma: if a suffix of a dangerous string `w` (a marker
remnant that still contains the core `PRESERVE_COLUMN` ahead of position `e`)
matches at the start of the uppercased phase-1/2 output of `s`, then the
consumed part of `w` together with the uppercase image of `s` exhibits an
occurrence of `PRESERVE_COLUMN`. -/
theorem lemA_gen (w : List Char) (e : Nat)
    (hew : e < w.length)
    (hm0 : ∀ k, k < e → pfx (w.drop k) m0 = false)
    (hm1 : ∀ k, k < e → pfx (w.drop k) m1 = false)
    (hw20 : w.length ≤ 20)
    (hpc : occursB pcore (w.take e) = true) :
    ∀ n s, s.length ≤ n → ∀ k, k < e →
      pfx (w.drop k) (upL (phase12 s)) = true →
      occursB pcore (w.take k ++ upL s) = true := by
  intro n
  induction n with
  | zero =>
    intro s hs k hk h
    have hnil : s = [] := List.length_eq_zero.mp (Nat.le_zero.mp hs)
    subst hnil
    exfalso
    have hdk : w.drop k ≠ [] := by
      rw [Ne, List.drop_eq_nil_iff, Nat.not_le]
      omega
    cases hd : w.drop k with
    | nil => exact hdk hd
    | cons x xs =>
      rw [hd] at h
      exact Bool.noConfusion (h.symm.trans (pfx_cons_nil x xs))
  | succ n ih =>
    intro s hs k hk h
    have hdk : w.drop k ≠ [] := by
      rw [Ne, List.drop_eq_nil_iff, Nat.not_le]
      omega
    cases s with
    | nil =>
      exfalso
      cases hd : w.drop k with
      | nil => exact hdk hd
      | cons x xs =>
        rw [hd] at h
        exact Bool.noConfusion (h.symm.trans (pfx_cons_nil x xs))
    | cons c rest =>
      simp only [List.length_cons] at hs
      by_cases h0 : pfx p0 (c :: rest) = true
      · exfalso
        rw [phase12_p0 _ h0, upL_append, show upL m0 = m0 from by decide] at h
        rcases pfx_append_cases _ _ _ h with ⟨_, h2⟩ | ⟨hlen2, _, _⟩
        · rw [hm0 k hk] at h2
          exact Bool.noConfusion h2
        · have hk20 : (w.drop k).length ≤ 20 := by
            simp only [List.length_drop]
            omega
          have hml : m0.length = 21 := by decide
          omega
      · by_cases h1 : pfx p1 (c :: rest) = true
        · exfalso
          rw [phase12_p1 _ (Bool.eq_false_iff.mpr h0) h1, upL_append,
            show upL m1 = m1 from by decide] at h
          rcases pfx_append_cases _ _ _ h with ⟨_, h2⟩ | ⟨hlen2, _, _⟩
          · rw [hm1 k hk] at h2
            exact Bool.noConfusion h2
          · have hk20 : (w.drop k).length ≤ 20 := by
              simp only [List.length_drop]
              omega
            have hml : m1.length = 21 := by decide
            omega
        · rw [phase12_cons c rest (Bool.eq_false_iff.mpr h0) (Bool.eq_false_iff.mpr h1),
            upL_cons] at h
          have hsplit := pfx_cons_split (w.drop k) (upC c) _ hdk h
          have htake : w.take (k + 1) = w.take k ++ [upC c] := by
            rw [List.take_add w k 1, take_one_headI (w.drop k) hdk, hsplit.1]
          have hupl : w.take k ++ upL (c :: rest) = w.take (k + 1) ++ upL rest := by
            rw [upL_cons, htake, List.append_assoc, List.singleton_append]
          rw [hupl]
          by_cases hk1 : k + 1 < e
          · apply ih rest (by omega) (k + 1) hk1
            rw [← List.tail_drop]
            exact hsplit.2
          · have hke : k + 1 = e := by omega
            rw [hke]
            exact occursB_append_left pcore (w.take e) _ hpc


theorem lemA_dm1 (s : List Char)
    (h : pfx (m0.drop 1) (upL (phase12 s)) = true) :
    occursB pcore (upL s) = true := by
  have hh := lemA_gen (m0.drop 1) 16 (by decide) (by decide) (by decide) (by decide)
    (by decide) s.length s le_rfl 0 (by decide) (by simpa using h)
  simpa using hh

theorem lemA_dm2 (s : List Char)
    (h : pfx (m0.drop 2) (upL (phase12 s)) = true) :
    occursB pcore (upL s) = true := by
  have hh := lemA_gen (m0.drop 2) 15 (by decide) (by decide) (by decide) (by decide)
    (by decide) s.length s le_rfl 0 (by decide) (by simpa using h)
  simpa using hh

theorem hpc_tail (c : Char) (rest : List Char)
    (h : occursB pcore (upL (c :: rest)) = false) :
    occursB pcore (upL rest) = false := by
  rw [upL_cons] at h
  exact occursB_tail_false _ _ _ h

theorem hpc_drop (s : List Char) (k : Nat)
    (h : occursB pcore (upL s) = false) :
    occursB pcore (upL (s.drop k)) = false := by
  rw [upL_drop]
  exact occursB_drop_false _ _ _ h

theorem ar0_p0 (s : List Char) (h : pfx p0 s = true) :
    afterRestore0 s = p0 ++ afterRestore0 (s.drop p0.length) := scan2_p0 p0 m1 upC s h

theorem ar0_p1 (s : List Char) (h0 : pfx p0 s = false) (h : pfx p1 s = true) :
    afterRestore0 s = m1 ++ afterRestore0 (s.drop p1.length) := scan2_p1 p0 m1 upC s h0 h

theorem ar0_cons (c : Char) (rest : List Char)
    (h0 : pfx p0 (c :: rest) = false) (h1 : pfx p1 (c :: rest) = false) :
    afterRestore0 (c :: rest) = upC c :: afterRestore0 rest :=
  scan2_cons p0 m1 upC c rest h0 h1

/-- Structure of the first marker restoration: on a query whose uppercase
image avoids the marker core, `repl m0 p0` applied to the uppercased phase-1/2
output restores exactly the inserted `m0` blocks, giving the single-pass view
`afterRestore0`. -/
theorem restore0_eq : ∀ n s, s.length ≤ n →
    occursB pcore (upL s) = false →
    repl m0 p0 (upL (phase12 s)) = afterRestore0 s := by
  intro n
  induction n with
  | zero =>
    intro s hs _
    have hnil : s = [] := List.length_eq_zero.mp (Nat.le_zero.mp hs)
    subst hnil
    rfl
  | succ n ih =>
    intro s hs hH
    cases s with
    | nil => rfl
    | cons c rest =>
      simp only [List.length_cons] at hs
      by_cases h0 : pfx p0 (c :: rest) = true
      · rw [phase12_p0 _ h0, upL_append, show upL m0 = m0 from by decide]
        rw [repl_match m0 p0 _ (by decide) (pfx_append_self m0 _), List.drop_left]
        rw [ih _ (by
          have : 1 ≤ p0.length := by decide
          simp only [List.length_drop, List.length_cons]
          omega) (hpc_drop _ _ hH)]
        rw [ar0_p0 _ h0]
      · by_cases h1 : pfx p1 (c :: rest) = true
        · have hb0 : pfx p0 (c :: rest) = false := Bool.eq_false_iff.mpr h0
          have hHd : occursB pcore (upL ((c :: rest).drop p1.length)) = false :=
            hpc_drop _ _ hH
          rw [phase12_p1 _ hb0 h1, upL_append, show upL m1 = m1 from by decide]
          rw [repl_append_skip m0 p0 m1 _ ?hcond]
          case hcond =>
            intro i hi
            rw [Bool.eq_false_iff]
            intro hcon
            rcases pfx_append_cases _ _ _ hcon with ⟨hl, h2⟩ | ⟨hl, h2, h3⟩
            · have hi0 : i = 0 := by
                have hm1l : m1.length = 21 := by decide
                have hm0l : m0.length = 21 := by decide
                simp only [List.length_drop] at hl
                omega
              subst hi0
              rw [show pfx m0 (m1.drop 0) = false from by decide] at h2
              exact Bool.noConfusion h2
            · have hfact : ∀ j, j < 21 →
                  (m0.take ((m1.drop j).length) = m1.drop j → j = 19 ∨ j = 20) := by
                decide
              have hm1l : m1.length = 21 := by decide
              rcases hfact i (by omega) h2 with hi | hi
              · subst hi
                rw [show ((m1.drop 19).length) = 2 from by decide] at h3
                rw [lemA_dm2 _ h3] at hHd
                exact Bool.noConfusion hHd
              · subst hi
                rw [show ((m1.drop 20).length) = 1 from by decide] at h3
                rw [lemA_dm1 _ h3] at hHd
                exact Bool.noConfusion hHd
          rw [ih _ (by
            have : 1 ≤ p1.length := by decide
            simp only [List.length_drop, List.length_cons]
            omega) hHd]
          rw [ar0_p1 _ hb0 h1]
        · have hb0 : pfx p0 (c :: rest) = false := Bool.eq_false_iff.mpr h0
          have hb1 : pfx p1 (c :: rest) = false := Bool.eq_false_iff.mpr h1
          have hHt : occursB pcore (upL rest) = false := hpc_tail c rest hH
          rw [phase12_cons c rest hb0 hb1, upL_cons]
          have hnomatch : ¬(m0 ≠ [] ∧ pfx m0 (upC c :: upL (phase12 rest)) = true) := by
            intro hc
            have hsplit := pfx_cons_split m0 (upC c) _ (by decide) hc.2
            have hd1 : pfx (m0.drop 1) (upL (phase12 rest)) = true := by
              have hmt : m0.tail = m0.drop 1 := rfl
              rw [← hmt]
              exact hsplit.2
            rw [lemA_dm1 _ hd1] at hHt
            exact Bool.noConfusion hHt
          rw [repl_step_neg m0 p0 _ _ hnomatch]
          rw [ih rest (by omega) hHt]
          rw [ar0_cons c rest hb0 hb1]

/-- Propagation lemma for the second restoration stage, against the
single-pass view `afterRestore0` (which additionally emits restored
lowercase `p0` blocks). -/
theorem lemB_gen (w : List Char) (e : Nat)
    (hew : e < w.length)
    (hm1 : ∀ k, k < e → pfx (w.drop k) m1 = false)
    (hp0a : ∀ k, k < e → pfx (w.drop k) p0 = false)
    (hp0b : ∀ k, k < e → ¬((w.drop k).take p0.length = p0))
    (hw20 : w.length ≤ 20)
    (hpc : occursB pcore (w.take e) = true) :
    ∀ n s, s.length ≤ n → ∀ k, k < e →
      pfx (w.drop k) (afterRestore0 s) = true →
      occursB pcore (w.take k ++ upL s) = true := by
  intro n
  induction n with
  | zero =>
    intro s hs k hk h
    have hnil : s = [] := List.length_eq_zero.mp (Nat.le_zero.mp hs)
    subst hnil
    exfalso
    have hdk : w.drop k ≠ [] := by
      rw [Ne, List.drop_eq_nil_iff, Nat.not_le]
      omega
    cases hd : w.drop k with
    | nil => exact hdk hd
    | cons x xs =>
      rw [hd] at h
      exact Bool.noConfusion (h.symm.trans (pfx_cons_nil x xs))
  | succ n ih =>
    intro s hs k hk h
    have hdk : w.drop k ≠ [] := by
      rw [Ne, List.drop_eq_nil_iff, Nat.not_le]
      omega
    cases s with
    | nil =>
      exfalso
      cases hd : w.drop k with
      | nil => exact hdk hd
      | cons x xs =>
        rw [hd] at h
        exact Bool.noConfusion (h.symm.trans (pfx_cons_nil x xs))
    | cons c rest =>
      simp only [List.length_cons] at hs
      by_cases h0 : pfx p0 (c :: rest) = true
      · exfalso
        rw [ar0_p0 _ h0] at h
        rcases pfx_append_cases _ _ _ h with ⟨_, h2⟩ | ⟨_, h2, _⟩
        · rw [hp0a k hk] at h2
          exact Bool.noConfusion h2
        · exact hp0b k hk h2
      · by_cases h1 : pfx p1 (c :: rest) = true
        · exfalso
          rw [ar0_p1 _ (Bool.eq_false_iff.mpr h0) h1] at h
          rcases pfx_append_cases _ _ _ h with ⟨_, h2⟩ | ⟨hlen2, _, _⟩
          · rw [hm1 k hk] at h2
            exact Bool.noConfusion h2
          · have hk20 : (w.drop k).length ≤ 20 := by
              simp only [List.length_drop]
              omega
            have hml : m1.length = 21 := by decide
            omega
        · rw [ar0_cons c rest (Bool.eq_false_iff.mpr h0) (Bool.eq_false_iff.mpr h1)] at h
          have hsplit := pfx_cons_split (w.drop k) (upC c) _ hdk h
          have htake : w.take (k + 1) = w.take k ++ [upC c] := by
            rw [List.take_add w k 1, take_one_headI (w.drop k) hdk, hsplit.1]
          have hupl : w.take k ++ upL (c :: rest) = w.take (k + 1) ++ upL rest := by
            rw [upL_cons, htake, List.append_assoc, List.singleton_append]
          rw [hupl]
          by_cases hk1 : k + 1 < e
          · apply ih rest (by omega) (k + 1) hk1
            rw [← List.tail_drop]
            exact hsplit.2
          · have hke : k + 1 = e := by omega
            rw [hke]
            exact occursB_append_left pcore (w.take e) _ hpc

theorem lemB_dm1 (s : List Char)
    (h : pfx (m1.drop 1) (afterRestore0 s) = true) :
    occursB pcore (upL s) = true := by
  have hh := lemB_gen (m1.drop 1) 16 (by decide) (by decide) (by decide) (by decide)
    (by decide) (by decide) s.length s le_rfl 0 (by decide) (by simpa using h)
  simpa using hh

theorem ue_p0 (s : List Char) (h : pfx p0 s = true) :
    uppercase_except_spec s = p0 ++ uppercase_except_spec (s.drop p0.length) :=
  scan2_p0 p0 p1 upC s h

theorem ue_p1 (s : List Char) (h0 : pfx p0 s = false) (h : pfx p1 s = true) :
    uppercase_except_spec s = p1 ++ uppercase_except_spec (s.drop p1.length) :=
  scan2_p1 p0 p1 upC s h0 h

theorem ue_cons (c : Char) (rest : List Char)
    (h0 : pfx p0 (c :: rest) = false) (h1 : pfx p1 (c :: rest) = false) :
    uppercase_except_spec (c :: rest) = upC c :: uppercase_except_spec rest :=
  scan2_cons p0 p1 upC c rest h0 h1

/-- Structure of the second marker restoration: `repl m1 p1` on
`afterRestore0 s` restores exactly the inserted `m1` blocks, yielding the
specification-side selective uppercase. -/
theorem restore1_eq : ∀ n s, s.length ≤ n →
    occursB pcore (upL s) = false →
    repl m1 p1 (afterRestore0 s) = uppercase_except_spec s := by
  intro n
  induction n with
  | zero =>
    intro s hs _
    have hnil : s = [] := List.length_eq_zero.mp (Nat.le_zero.mp hs)
    subst hnil
    rfl
  | succ n ih =>
    intro s hs hH
    cases s with
    | nil => rfl
    | cons c rest =>
      simp only [List.length_cons] at hs
      by_cases h0 : pfx p0 (c :: rest) = true
      · rw [ar0_p0 _ h0]
        rw [repl_append_skip m1 p1 p0 _ ?hcond]
        case hcond =>
          intro i hi
          rw [Bool.eq_false_iff]
          intro hcon
          rcases pfx_append_cases _ _ _ hcon with ⟨hl, _⟩ | ⟨_, h2, _⟩
          · have hm1l : m1.length = 21 := by decide
            have hp0l : p0.length = 14 := by decide
            simp only [List.length_drop] at hl
            omega
          · have hfact : ∀ j, j < 14 →
                ¬(m1.take ((p0.drop j).length) = p0.drop j) := by decide
            have hp0l : p0.length = 14 := by decide
            exact hfact i (by omega) h2
        rw [ih _ (by
          have : 1 ≤ p0.length := by decide
          simp only [List.length_drop, List.length_cons]
          omega) (hpc_drop _ _ hH)]
        rw [ue_p0 _ h0]
      · by_cases h1 : pfx p1 (c :: rest) = true
        · have hb0 : pfx p0 (c :: rest) = false := Bool.eq_false_iff.mpr h0
          rw [ar0_p1 _ hb0 h1]
          rw [repl_match m1 p1 _ (by decide) (pfx_append_self m1 _), List.drop_left]
          rw [ih _ (by
            have : 1 ≤ p1.length := by decide
            simp only [List.length_drop, List.length_cons]
            omega) (hpc_drop _ _ hH)]
          rw [ue_p1 _ hb0 h1]
        · have hb0 : pfx p0 (c :: rest) = false := Bool.eq_false_iff.mpr h0
          have hb1 : pfx p1 (c :: rest) = false := Bool.eq_false_iff.mpr h1
          have hHt : occursB pcore (upL rest) = false := hpc_tail c rest hH
          rw [ar0_cons c rest hb0 hb1]
          have hnomatch : ¬(m1 ≠ [] ∧ pfx m1 (upC c :: afterRestore0 rest) = true) := by
            intro hc
            have hsplit := pfx_cons_split m1 (upC c) _ (by decide) hc.2
            have hd1 : pfx (m1.drop 1) (afterRestore0 rest) = true := by
              have hmt : m1.tail = m1.drop 1 := rfl
              rw [← hmt]
              exact hsplit.2
            rw [lemB_dm1 _ hd1] at hHt
            exact Bool.noConfusion hHt
          rw [repl_step_neg m1 p1 _ _ hnomatch]
          rw [ih rest (by omega) hHt]
          rw [ue_cons c rest hb0 hb1]

/-- On queries whose uppercase image avoids the marker core
`PRESERVE_COLUMN`, the two-phase placeholder substitution of
`_selective_uppercase` computes exactly the specification-side selective
uppercase. -/
theorem selective_uppercase_eq_spec (s : List Char)
    (hH : occursB pcore (upL s) = false) :
    selective_uppercase s = uppercase_except_spec s := by
  show repl m1 p1 (repl m0 p0 (upL (repl p1 m1 (repl p0 m0 s)))) = _
  rw [phase12_eq_repl s.length s le_rfl]
  rw [restore0_eq s.length s le_rfl hH]
  rw [restore1_eq s.length s le_rfl hH]

/-! ### C1 : the case-preservation guarantee of the uppercase pass -/

/-- C1 counterexample: the query
`"pim_año_actual __PRESERVE_COLUMN_0__"` contains the exception-set member
`pim_año_actual`, yet the query passed to the backend is
`"pim_año_actual pim_año_actual"` — the literal marker text in the input is
rewritten to the column name by the restoration phase, so the backend query
is not the normalized query uppercased outside the preserved occurrences. -/
theorem claim1_counterexample :
    occursB p0 (cs "pim_año_actual __PRESERVE_COLUMN_0__") = true ∧
    backendQuery (cs "pim_año_actual __PRESERVE_COLUMN_0__") ≠
      uppercase_except_spec
        (convert_sqlite_to_postgres (cs "pim_año_actual __PRESERVE_COLUMN_0__")) := by
  constructor
  · decide
  · decide

/-- C1 (amended): for every query `q` containing a Case-Preservation
Exception Set member, provided no case variant of the placeholder core
`PRESERVE_COLUMN` occurs in the normalized query (i.e. the uppercased
normalized query does not contain `PRESERVE_COLUMN`), the query passed to
the backend keeps every occurrence of the members byte-identical while every
other character of the normalized query is uppercased: it equals the
specification-side selective uppercase of the normalized query. -/
theorem claim1_preserves_exceptions (q : List Char)
    (hmem : occursB p0 q = true ∨ occursB p1 q = true)
    (hsafe : occursB pcore (upL (convert_sqlite_to_postgres q)) = false) :
    backendQuery q = uppercase_except_spec (convert_sqlite_to_postgres q) :=
  selective_uppercase_eq_spec _ hsafe

theorem claim1_preserves_exceptions_witness :
    backendQuery (cs "select pim_año_actual from inversiones") =
      uppercase_except_spec
        (convert_sqlite_to_postgres (cs "select pim_año_actual from inversiones")) :=
  claim1_preserves_exceptions (cs "select pim_año_actual from inversiones")
    (Or.inl (by decide)) (by decide)

end PocMef
